import Mathlib

/-!
Verification of the osl-ephys GLM-Spectrum pipeline specification.

The repository's shipped sources are tutorial notebooks that call into the
GLM-Spectrum engine (`osl_ephys.glm` / `glmtools`).  The engine itself is not
among the shipped source files, so its operations are modelled here from the
specification's own words (each such definition is marked `Modelled from the
spec:`).  The two functions that are fully present in the shipped sources
(`delete_headshape_points` and `get_data`) are embedded directly from that
code.

All numeric data is modelled over `ℚ` so that every definition is executable
and every arithmetic fact is exact.
-/

namespace OslEphys

/-- Dot product of two rational vectors (spectral observations, regressors). -/
def dot (a b : List ℚ) : ℚ :=
  (List.zipWith (· * ·) a b).sum

/-- Sum of squares of a vector; equals `dot v v`. -/
def sumSq (v : List ℚ) : ℚ :=
  (v.map (fun x => x * x)).sum

/-- Pointwise difference of two vectors. -/
def subVec (a b : List ℚ) : List ℚ :=
  List.zipWith (· - ·) a b

/-- Scalar multiple of a vector. -/
def scaleVec (c : ℚ) (v : List ℚ) : List ℚ :=
  v.map (fun x => c * x)

/-- The zero vector of a given length. -/
def zeroVec (n : Nat) : List ℚ :=
  List.replicate n 0

/-- Linear combination of a list of columns with coefficient vector `d`,
all columns having length `n`: `sum_j d_j * col_j`. -/
def linComb (cols : List (List ℚ)) (d : List ℚ) (n : Nat) : List ℚ :=
  (List.zipWith (fun c coef => scaleVec coef c) cols d).foldl
    (fun acc v => List.zipWith (· + ·) acc v) (zeroVec n)

/-- Multiply a matrix given as a list of rows by a vector. -/
def matVec (rows : List (List ℚ)) (v : List ℚ) : List ℚ :=
  rows.map (fun r => dot r v)

/-- One step of Greville's column-recursive Moore-Penrose pseudo-inverse:
given the columns processed so far and the pseudo-inverse rows built so far,
incorporate one further column `a`.  The rank-deficient branch
(`dot c c = 0`) is handled by the minimum-norm update rather than failure. -/
def grevilleStep (state : List (List ℚ) × List (List ℚ)) (a : List ℚ) :
    List (List ℚ) × List (List ℚ) :=
  let cols := state.1
  let pinvRows := state.2
  let n := a.length
  let d := matVec pinvRows a
  let c := subVec a (linComb cols d n)
  let b :=
    if dot c c = 0 then
      scaleVec (1 / (1 + dot d d)) (linComb pinvRows d n)
    else
      scaleVec (1 / dot c c) c
  let newRows :=
    (List.zipWith (fun row coef => subVec row (scaleVec coef b)) pinvRows d)
      ++ [b]
  (cols ++ [a], newRows)

/-- Modelled from the spec: the Moore-Penrose pseudo-inverse of a design
matrix, given as its list of columns (regressors); the result is the list of
rows of `pinv(X)`.  Computed by Greville's recursion, which is total on every
matrix, rank-deficient ones included (spec 4.4: "Must use a pseudo-inverse
(or equivalent minimum-norm solution) rather than failing outright"). -/
def pinvCols (cols : List (List ℚ)) : List (List ℚ) :=
  (cols.foldl grevilleStep ([], [])).2

/-- Error taxonomy of the pipeline (spec section 7). -/
inductive GlmError where
  | InvalidConfiguration : GlmError
  | DegenerateRegressor : GlmError
  | InputShapeMismatch : GlmError
  deriving DecidableEq, Repr

/-- Modelled from the spec: the GLM fitting engine for one (frequency,
channel) pair: `beta = pinv(X) @ y` (spec 4.4).  The design is given by its
columns.  The engine has no failure branch: degenerate designs go through the
pseudo-inverse and yield minimum-norm estimates. -/
def olsFit (cols : List (List ℚ)) (y : List ℚ) : Except GlmError (List ℚ) :=
  Except.ok (matVec (pinvCols cols) y)

/-- Modelled from the spec: the single constant regressor (a column of ones),
the design used by the plain Welch-style spectrum estimate. -/
def constantRegressor (n : Nat) : List ℚ :=
  List.replicate n 1

/-- Arithmetic mean of a list of observations along the observation axis. -/
def meanQ (y : List ℚ) : ℚ :=
  y.sum / y.length

/-- Residual sum of squares of a single-regressor model with coefficient
`beta`: the squared norm of `y - beta * x`. -/
def rss (x y : List ℚ) (beta : ℚ) : ℚ :=
  sumSq (subVec y (scaleVec beta x))

/-- A 2x2 determinant of a matrix given as a list of rows, used to exhibit a
rank-deficient (singular) Gram matrix. -/
def det2 (m : List (List ℚ)) : ℚ :=
  let a := (m.getD 0 []).getD 0 0
  let b := (m.getD 0 []).getD 1 0
  let c := (m.getD 1 []).getD 0 0
  let d := (m.getD 1 []).getD 1 0
  a * d - b * c

/-- Gram matrix `X^T X` of a design given by its columns. -/
def gram (cols : List (List ℚ)) : List (List ℚ) :=
  cols.map (fun ci => cols.map (fun cj => dot ci cj))

/-- Modelled from the spec: the t-statistic `tstat = cope / sqrt(varcope)`
(spec 4.4), represented by its signed square `t * |t| = cope * |cope| /
varcope` (the map `t -> t * |t|` is a bijection on the reals, and the square
root of a rational is in general irrational, so the signed square is the
exact rational representation of the t-statistic).  When `varcope` is zero or
negative the t-statistic is undefined and is signalled as `none` (NaN in the
numeric code), never as an exception: the function is total. -/
def tstatSigned (cope varcope : ℚ) : Option ℚ :=
  if 0 < varcope then some (cope * |cope| / varcope) else none

/-- Modelled from the spec: the per-bin per-channel t-statistic loop; one
entry of `(cope, varcope)` per (frequency, channel) pair.  Degenerate entries
produce NaN (`none`) in place, the loop itself never aborts. -/
def tstatLoop (pairs : List (ℚ × ℚ)) : List (Option ℚ) :=
  pairs.map (fun p => tstatSigned p.1 p.2)

/-- Modelled from the spec: segment count of the windowing stage,
`(n_samples - nperseg) / step + 1` with trailing partial windows dropped
(spec 4.1; natural division performs the dropping). -/
def nSegments (nSamples nperseg step : Nat) : Nat :=
  (nSamples - nperseg) / step + 1

/-- Modelled from the spec: number of frequency bins of the spectral
transform, spanning 0 to Nyquist at resolution `sample_rate / nperseg`
(spec 4.2), i.e. `nperseg / 2 + 1` bins. -/
def nFreqBins (nperseg : Nat) : Nat :=
  nperseg / 2 + 1

/-- Modelled from the spec: the frequency (in Hz) of bin `k`, with uniform
spacing `sample_rate / nperseg` (spec 4.2). -/
def freqOfBin (sampleRate nperseg k : Nat) : ℚ :=
  (k : ℚ) * (sampleRate : ℚ) / (nperseg : ℚ)

/-- Population variance of a list of observations. -/
def varianceQ (xs : List ℚ) : ℚ :=
  (xs.map (fun x => (x - meanQ xs) * (x - meanQ xs))).sum / xs.length

/-- The mean-centred version of a list of observations. -/
def centered (xs : List ℚ) : List ℚ :=
  xs.map (fun x => x - meanQ xs)

/-- Modelled from the spec: the covariate branch of the design matrix
builder (spec 4.3): a named covariate array is z-transformed (subtract mean,
divide by standard deviation) and the builder fails with
`DegenerateRegressor` when the standard deviation is zero.  The standard
deviation is zero exactly when the variance is zero, and since the standard
deviation is irrational in general the successful result is represented
exactly as the pair (centred values, variance): the z-scores are the centred
values divided by the square root of the returned (positive) variance. -/
def buildCovariate (xs : List ℚ) : Except GlmError (List ℚ × ℚ) :=
  if varianceQ xs = 0 then Except.error GlmError.DegenerateRegressor
  else Except.ok (centered xs, varianceQ xs)

/-- Maximum absolute value of a list of observations. -/
def maxAbs (xs : List ℚ) : ℚ :=
  (xs.map (fun x => |x|)).foldl max 0

/-- Modelled from the spec: the confound branch of the design matrix builder
(spec 4.3): a named confound array is unit-max scaled (divide by the maximum
absolute value) and the builder fails with `DegenerateRegressor` on all-zero
input. -/
def buildConfound (xs : List ℚ) : Except GlmError (List ℚ) :=
  if maxAbs xs = 0 then Except.error GlmError.DegenerateRegressor
  else Except.ok (xs.map (fun x => x / maxAbs xs))

/-- Modelled from the spec: the group-level aggregator (spec 4.5).  It
stacks first-level cope arrays (one row per recording, one entry per
frequency/channel slot) into a new observations axis and re-applies the
identical OLS fitting engine `olsFit` per slot; when the number of rows of
the group design differs from the number of first-level results it fails
with `InputShapeMismatch`.  The group design is given as a list of rows
(observations x regressors). -/
def groupGlmFit (designRows : List (List ℚ)) (firstLevel : List (List ℚ)) :
    Except GlmError (List (Except GlmError (List ℚ))) :=
  if designRows.length = firstLevel.length then
    Except.ok ((firstLevel.transpose).map (fun y => olsFit designRows.transpose y))
  else
    Except.error GlmError.InputShapeMismatch

/-- Modelled from the spec: the largest cluster statistic of one
permutation's refit (spec 4.6 step 4: "record the single largest cluster
statistic"); cluster statistics are non-negative, an empty cluster list
contributes 0. -/
def largestClusterStat (clusterStats : List ℚ) : ℚ :=
  clusterStats.foldl max 0

/-- Modelled from the spec: the null distribution of the permutation test:
exactly one value per permutation, namely that permutation's largest cluster
statistic (spec 4.6 step 4).  Each permutation is represented by the list of
cluster statistics of its refit. -/
def nullDistribution (permClusterStats : List (List ℚ)) : List ℚ :=
  permClusterStats.map largestClusterStat

/-- Insert a rational into an already sorted list. -/
def insSorted (x : ℚ) : List ℚ → List ℚ
  | [] => [x]
  | y :: ys => if x ≤ y then x :: y :: ys else y :: insSorted x ys

/-- Insertion sort of a list of rationals, ascending. -/
def sortQ (xs : List ℚ) : List ℚ :=
  xs.foldr insSorted []

/-- Modelled from the spec: the empirical `p`-th percentile of a list of
values, computed with the standard linear-interpolation convention (index
`p/100 * (n-1)` into the sorted values, interpolating between the two
neighbouring order statistics). -/
def percentile (xs : List ℚ) (p : ℚ) : ℚ :=
  let s := sortQ xs
  let n := s.length
  if n = 0 then 0
  else
    let q : ℚ := p * ((n : ℚ) - 1) / 100
    let i : Nat := q.floor.toNat
    let frac : ℚ := q - (i : ℚ)
    let lo := s.getD i 0
    let hi := s.getD (i + 1) (s.getD i 0)
    lo + frac * (hi - lo)

/-- The default significance level of the permutation test, alpha = 0.05. -/
def defaultAlpha : ℚ := 1 / 20

/-- Modelled from the spec: an observed cluster is significant at the
default level exactly when its statistic exceeds the `(1 - alpha)`
percentile of the null distribution (spec 4.6 step 5; default alpha = 0.05,
i.e. the 95th percentile). -/
def significantCluster (stat : ℚ) (nullDist : List ℚ) : Bool :=
  decide (percentile nullDist ((1 - defaultAlpha) * 100) < stat)

/-- A fitted first-level GLM-Spectrum model: beta, cope, varcope and tstat
arrays (each a matrix indexed by slot and entry) plus the frequency axis
(spec section 3, "Fitted Model", and section 6, "Persistence layer"). -/
structure FittedGLM where
  betas : List (List ℚ)
  copes : List (List ℚ)
  varcopes : List (List ℚ)
  tstats : List (List ℚ)
  freqs : List ℚ
  deriving DecidableEq, Repr

/-- Encode a matrix as (row count, column count, flattened data), the shape
of a single on-disk dataset. -/
def encodeMat (m : List (List ℚ)) : Nat × Nat × List ℚ :=
  (m.length, (m.headD []).length, m.flatten)

/-- Split a flat list back into `r` rows of `c` entries each. -/
def chunksN (r c : Nat) (xs : List ℚ) : List (List ℚ) :=
  match r with
  | 0 => []
  | r + 1 => xs.take c :: chunksN r c (xs.drop c)

/-- Decode a (row count, column count, flattened data) triple back into a
matrix, checking that the flat data has the declared size. -/
def decodeMat (e : Nat × Nat × List ℚ) : Option (List (List ℚ)) :=
  if e.2.2.length = e.1 * e.2.1 then some (chunksN e.1 e.2.1 e.2.2) else none

/-- The serialized form of a fitted first-level model: one file holding the
four fitted-parameter matrices and the frequency axis. -/
structure SerializedGLM where
  betasE : Nat × Nat × List ℚ
  copesE : Nat × Nat × List ℚ
  varcopesE : Nat × Nat × List ℚ
  tstatsE : Nat × Nat × List ℚ
  freqsE : List ℚ
  deriving DecidableEq, Repr

/-- Modelled from the spec: serializing a fitted first-level model to a
single file (design matrix omitted here; fitted parameters + frequency axis,
spec section 6, "Persistence layer"). -/
def saveModel (m : FittedGLM) : SerializedGLM :=
  ⟨encodeMat m.betas, encodeMat m.copes, encodeMat m.varcopes,
    encodeMat m.tstats, m.freqs⟩

/-- Modelled from the spec: reloading a serialized first-level model without
re-running the fit: pure decoding of the stored arrays. -/
def loadModel (s : SerializedGLM) : Option FittedGLM :=
  match decodeMat s.betasE, decodeMat s.copesE, decodeMat s.varcopesE,
      decodeMat s.tstatsE with
  | some b, some c, some v, some t => some ⟨b, c, v, t, s.freqsE⟩
  | _, _, _, _ => none

/-- A matrix is rectangular when every row has the length of the first row
(vacuously true of the empty matrix). -/
def Rect (m : List (List ℚ)) : Prop :=
  ∀ row ∈ m, row.length = (m.headD []).length

/-- The outcome of the input-validation stage of `delete_headshape_points`
(shipped source, `src/unnamed/part_002`): whether a `ValueError` was
constructed, whether one was raised, and the argument the function then
passes to `np.loadtxt`. -/
structure DHSValidation where
  constructedValueError : Bool
  raisedValueError : Bool
  loadtxtArg : Option String
  deriving DecidableEq, Repr

/-- Embedded from the shipped source of `delete_headshape_points`: the
dispatch on `(recon_dir, subject, polhemus_headshape_file)`.  The first
branch resolves the headshape file through `get_coreg_filenames` (abstracted
as `coregFile`); the second keeps the given file; the final branch evaluates
the expression `ValueError('Invalid inputs. ...')` WITHOUT a `raise`
statement, so control falls through to `np.loadtxt(polhemus_headshape_file)`
with the parameter still `None`. -/
def delete_headshape_points_validation (recon_dir subject
    polhemus_headshape_file : Option String) (coregFile : String) :
    DHSValidation :=
  if recon_dir.isSome ∧ subject.isSome then
    ⟨false, false, some coregFile⟩
  else if polhemus_headshape_file.isSome then
    ⟨false, false, polhemus_headshape_file⟩
  else
    ⟨true, false, none⟩

/-- A filesystem side effect of `get_data` (shipped source,
`src/unnamed/part_002` and `src/unnamed/part_003`). -/
inductive FsEffect where
  | fetch (path : String) : FsEffect
  | unzip (path : String) : FsEffect
  | remove (path : String) : FsEffect
  deriving DecidableEq, Repr

/-- Embedded from the shipped source of `get_data`: given the set of paths
that exist in the current working directory, return the message and the list
of filesystem effects performed, in order.  When a directory named `name`
already exists the function returns early with the "already downloaded"
message and performs no effect. -/
def get_data (existing : List String) (name : String) :
    String × List FsEffect :=
  if name ∈ existing then
    (name ++ " already downloaded. Skipping..", [])
  else
    ("Data downloaded to: " ++ name,
      [FsEffect.fetch ("SourceRecon/data/" ++ name ++ ".zip"),
        FsEffect.unzip (name ++ ".zip"),
        FsEffect.remove (name ++ ".zip")])

theorem dot_nil_right (a : List ℚ) : dot a [] = 0 := by
  cases a <;> rfl

theorem dot_zeroVec (n : Nat) (y : List ℚ) : dot (zeroVec n) y = 0 := by
  induction n generalizing y with
  | zero => rfl
  | succ m ih =>
    cases y with
    | nil => exact dot_nil_right _
    | cons b bs =>
      simp [dot, zeroVec, List.replicate_succ] at *
      simpa [dot, zeroVec] using ih bs

theorem dot_scaleVec_left (c : ℚ) (x y : List ℚ) :
    dot (scaleVec c x) y = c * dot x y := by
  induction x generalizing y with
  | nil => simp [dot, scaleVec]
  | cons a as ih =>
    cases y with
    | nil => simp [dot_nil_right, scaleVec]
    | cons b bs =>
      simp [dot, scaleVec] at *
      rw [ih bs]
      ring

theorem subVec_zeroVec (a : List ℚ) : subVec a (zeroVec a.length) = a := by
  induction a with
  | nil => rfl
  | cons h t ih =>
    simp only [List.length_cons, zeroVec, List.replicate_succ, subVec,
      List.zipWith_cons_cons, sub_zero]
    exact congrArg (h :: ·) ih

theorem scaleVec_zeroVec (c : ℚ) (n : Nat) :
    scaleVec c (zeroVec n) = zeroVec n := by
  simp [scaleVec, zeroVec]

theorem pinvCols_single (x : List ℚ) :
    pinvCols [x] =
      [if dot x x = 0 then zeroVec x.length else scaleVec (1 / dot x x) x] := by
  by_cases h : dot x x = 0
  · simp [pinvCols, grevilleStep, matVec, linComb, subVec_zeroVec, h,
      scaleVec_zeroVec]
  · simp [pinvCols, grevilleStep, matVec, linComb, subVec_zeroVec, h]

theorem olsFit_single (x y : List ℚ) :
    olsFit [x] y =
      Except.ok [if dot x x = 0 then 0 else dot x y / dot x x] := by
  rw [olsFit, pinvCols_single]
  by_cases h : dot x x = 0
  · simp [h, matVec, dot_zeroVec]
  · simp [h, matVec, dot_scaleVec_left]
    rw [div_eq_mul_inv, mul_comm]

theorem dot_replicate_one (y : List ℚ) :
    dot (List.replicate y.length 1) y = y.sum := by
  induction y with
  | nil => rfl
  | cons h t ih =>
    simp only [List.length_cons, List.replicate_succ, dot,
      List.zipWith_cons_cons, List.sum_cons, one_mul]
    rw [show (List.zipWith (· * ·) (List.replicate t.length 1) t).sum
        = dot (List.replicate t.length 1) t from rfl, ih]

theorem dot_ones_ones (n : Nat) :
    dot (List.replicate n 1) (List.replicate n (1 : ℚ)) = n := by
  have h := dot_replicate_one (List.replicate n (1 : ℚ))
  simpa [List.sum_replicate, nsmul_eq_mul] using h

/-- C1: for every data array and every frequency/channel observation vector
`y`, fitting the GLM with a design consisting of the single constant
regressor yields `beta[0]` equal to the arithmetic mean of `y` along the
observation axis, as a consequence of `beta = pinv(X) @ y`. -/
theorem constant_design_beta_is_mean (y : List ℚ) (n : Nat)
    (hlen : y.length = n) (hn : 0 < n) :
    olsFit [constantRegressor n] y = Except.ok [meanQ y] := by
  have hy := olsFit_single (constantRegressor n) y
  have hself : dot (constantRegressor n) (constantRegressor n) = (n : ℚ) :=
    dot_ones_ones n
  have hne : (n : ℚ) ≠ 0 := by
    exact_mod_cast Nat.pos_iff_ne_zero.mp hn
  have hxy : dot (constantRegressor n) y = y.sum := by
    rw [constantRegressor, ← hlen]
    exact dot_replicate_one y
  rw [hy, hself, hxy, if_neg hne, meanQ, hlen]

/-- Witness for `constant_design_beta_is_mean` at `y = [1, 2, 6]`. -/
theorem constant_design_beta_is_mean_witness :
    olsFit [constantRegressor 3] [1, 2, 6] = Except.ok [meanQ [1, 2, 6]] :=
  constant_design_beta_is_mean [1, 2, 6] 3 (by decide) (by decide)

/-- C9: when `delete_headshape_points` is called with `recon_dir`,
`subject` and `polhemus_headshape_file` all `None`, the validation branch
constructs a `ValueError` but does not raise it (there is no `raise`
statement), so the function proceeds to `np.loadtxt(None)`. -/
theorem delete_headshape_points_no_raise (coregFile : String) :
    delete_headshape_points_validation none none none coregFile =
      ⟨true, false, none⟩ := rfl

/-- C10: if a directory with the dataset's name already exists in the
current working directory, `get_data` returns the "already downloaded"
message and performs no fetch, unzip or remove: the filesystem effect list
is empty. -/
theorem get_data_skips_when_present (existing : List String) (name : String)
    (h : name ∈ existing) :
    get_data existing name =
      (name ++ " already downloaded. Skipping..", []) := by
  simp [get_data, h]

/-- Witness for `get_data_skips_when_present` with `wake_hen` present. -/
theorem get_data_skips_when_present_witness :
    get_data ["wake_hen"] "wake_hen" =
      ("wake_hen already downloaded. Skipping..", []) :=
  get_data_skips_when_present ["wake_hen"] "wake_hen" (by simp)

/-- C4 counterexample: for a 10-second input at 128 Hz (1280 samples) with
`nperseg = 128` and the claim's stated default step of `nperseg`, the
segment-count invariant `(n_samples - nperseg) / step + 1` yields 10
segments, not the 19 the claim asserts. -/
theorem segment_count_default_step_counterexample :
    nSegments 1280 128 128 = 10 ∧ nSegments 1280 128 128 ≠ 19 := by
  decide

/-- C4 amended: 19 segments arise from the half-overlap step
`nperseg / 2 = 64` (the 50 percent overlap actually used by the windowing
default), together with 65 frequency bins at 1 Hz resolution spanning 0 to
64 Hz; trailing partial windows are dropped by the integer division. -/
theorem segment_count_half_overlap :
    nSegments 1280 128 64 = 19 ∧ nFreqBins 128 = 65 ∧
      (∀ k : Nat, freqOfBin 128 128 k = k) ∧ freqOfBin 128 128 64 = 64 := by
  refine ⟨by decide, by decide, ?_, ?_⟩
  · intro k
    rw [freqOfBin]
    push_cast
    field_simp
  · rw [freqOfBin]
    norm_num

/-- C3: for every list of `(cope, varcope)` pairs (one per frequency/channel
pair), the t-statistic loop produces one entry per pair without aborting;
entries with strictly positive `varcope` carry the t-statistic
`cope / sqrt(varcope)` (represented exactly by its signed square
`cope * |cope| / varcope`), and entries with zero or negative `varcope` are
NaN (`none`), never an exception. -/
theorem tstat_nan_policy (pairs : List (ℚ × ℚ)) :
    (tstatLoop pairs).length = pairs.length ∧
      ∀ p ∈ pairs,
        (0 < p.2 → tstatSigned p.1 p.2 = some (p.1 * |p.1| / p.2)) ∧
        (p.2 ≤ 0 → tstatSigned p.1 p.2 = none) := by
  refine ⟨by simp [tstatLoop], ?_⟩
  intro p _
  constructor
  · intro hpos
    rw [tstatSigned, if_pos hpos]
  · intro hle
    rw [tstatSigned, if_neg (not_lt.mpr hle)]

/-- Witness for `tstat_nan_policy`: a positive-varcope bin next to a
degenerate one; the degenerate bin yields NaN and the loop still produces
both entries. -/
theorem tstat_nan_policy_witness :
    (tstatLoop [(3, 4), (1, 0)]).length = 2 ∧
      tstatSigned 3 4 = some (9 / 4) ∧ tstatSigned 1 0 = none := by
  have h := tstat_nan_policy [(3, 4), (1, 0)]
  refine ⟨h.1, ?_, ?_⟩
  · have h34 := (h.2 (3, 4) (by simp)).1 (by norm_num)
    rw [h34]
    norm_num
  · exact (h.2 (1, 0) (by simp)).2 (by norm_num)

/-- C6: the group-level aggregator fails with `InputShapeMismatch` exactly
when the number of rows of the group design differs from the number of
first-level results being stacked; when the counts agree it succeeds and
applies the same OLS fitting engine `olsFit` used at the first level to
every frequency/channel slot. -/
theorem group_glm_shape_check (designRows firstLevel : List (List ℚ)) :
    (designRows.length ≠ firstLevel.length →
      groupGlmFit designRows firstLevel =
        Except.error GlmError.InputShapeMismatch) ∧
    (designRows.length = firstLevel.length →
      groupGlmFit designRows firstLevel =
        Except.ok ((firstLevel.transpose).map
          (fun y => olsFit designRows.transpose y))) := by
  constructor
  · intro hne
    rw [groupGlmFit, if_neg hne]
  · intro heq
    rw [groupGlmFit, if_pos heq]

/-- Witness for `group_glm_shape_check`: a two-row group design against one
first-level result fails with `InputShapeMismatch`; against two first-level
results it fits. -/
theorem group_glm_shape_check_witness :
    groupGlmFit [[1], [1]] [[5, 7]] =
        Except.error GlmError.InputShapeMismatch ∧
      groupGlmFit [[1], [1]] [[5, 7], [9, 11]] =
        Except.ok (([[5, 7], [9, 11]] : List (List ℚ)).transpose.map
          (fun y => olsFit ([[1], [1]] : List (List ℚ)).transpose y)) :=
  ⟨(group_glm_shape_check [[1], [1]] [[5, 7]]).1 (by decide),
    (group_glm_shape_check [[1], [1]] [[5, 7], [9, 11]]).2 (by decide)⟩

theorem sumSq_nonneg (v : List ℚ) : 0 ≤ sumSq v := by
  induction v with
  | nil => simp [sumSq]
  | cons a as ih =>
    simp only [sumSq, List.map_cons, List.sum_cons] at *
    nlinarith [mul_self_nonneg a]

theorem sumSq_eq_dot_self (v : List ℚ) : sumSq v = dot v v := by
  induction v with
  | nil => rfl
  | cons a as ih =>
    have h1 : sumSq (a :: as) = a * a + sumSq as := by simp [sumSq]
    have h2 : dot (a :: as) (a :: as) = a * a + dot as as := by simp [dot]
    rw [h1, h2, ih]

theorem dot_comm (a b : List ℚ) : dot a b = dot b a := by
  induction a generalizing b with
  | nil => cases b <;> rfl
  | cons x xs ih =>
    cases b with
    | nil => rfl
    | cons y ys => simp [dot] at *; rw [ih ys]; ring

theorem dot_self_zero_forces_zero (x y : List ℚ) (h : dot x x = 0) :
    dot x y = 0 := by
  induction x generalizing y with
  | nil => rfl
  | cons a as ih =>
    have hsplit : dot (a :: as) (a :: as) = a * a + dot as as := by
      simp [dot]
    rw [hsplit] at h
    have has : 0 ≤ dot as as := by
      rw [← sumSq_eq_dot_self]; exact sumSq_nonneg as
    have ha : a = 0 := by nlinarith [mul_self_nonneg a]
    have has0 : dot as as = 0 := by nlinarith [mul_self_nonneg a]
    cases y with
    | nil => exact dot_nil_right _
    | cons b bs =>
      have : dot (a :: as) (b :: bs) = a * b + dot as bs := by simp [dot]
      rw [this, ha, ih bs has0]; ring

theorem sumSq_sub_expand (a b : List ℚ) (h : b.length = a.length) :
    sumSq (subVec a b) = sumSq a - 2 * dot a b + sumSq b := by
  induction a generalizing b with
  | nil =>
    have : b = [] := List.length_eq_zero.mp h
    subst this
    simp [sumSq, subVec, dot]
  | cons x xs ih =>
    cases b with
    | nil => simp at h
    | cons y ys =>
      have hlen : ys.length = xs.length := by simpa using h
      have h1 : subVec (x :: xs) (y :: ys) = (x - y) :: subVec xs ys := by
        simp [subVec]
      have h2 : dot (x :: xs) (y :: ys) = x * y + dot xs ys := by simp [dot]
      rw [h1, h2]
      simp only [sumSq, List.map_cons, List.sum_cons] at *
      rw [ih ys hlen]
      ring

theorem dot_scaleVec_right (c : ℚ) (a b : List ℚ) :
    dot a (scaleVec c b) = c * dot a b := by
  rw [dot_comm, dot_scaleVec_left, dot_comm]

theorem sumSq_scaleVec (c : ℚ) (x : List ℚ) :
    sumSq (scaleVec c x) = c * c * sumSq x := by
  rw [sumSq_eq_dot_self, sumSq_eq_dot_self, dot_scaleVec_left,
    dot_scaleVec_right]
  ring

theorem rss_expand (x y : List ℚ) (h : y.length = x.length) (t : ℚ) :
    rss x y t = sumSq y - 2 * t * dot x y + t * t * dot x x := by
  have hlen : (scaleVec t x).length = y.length := by
    simp [scaleVec, h]
  rw [rss, sumSq_sub_expand y (scaleVec t x) hlen, dot_scaleVec_right,
    sumSq_scaleVec, dot_comm y x, sumSq_eq_dot_self x]
  ring

/-- C2: the GLM fitting engine has no reachable failure branch: for every
design matrix and data vector `olsFit` returns `Except.ok`, including on
rank-deficient designs (witnessed by the duplicated-column design whose Gram
matrix is singular, `det2 (gram ...) = 0`).  Moreover for every
single-regressor design — the zero (rank-deficient) column included — the
returned estimate is a least-squares minimiser of the residual sum of
squares and has minimum norm among all minimisers, i.e. the pseudo-inverse
yields minimum-norm parameter estimates rather than an error. -/
theorem pinv_engine_never_fails :
    (∀ (cols : List (List ℚ)) (y : List ℚ),
        ∃ b, olsFit cols y = Except.ok b) ∧
      det2 (gram [[1, 1], [1, 1]]) = 0 ∧
      (∀ (x y : List ℚ), y.length = x.length →
        ∃ b, olsFit [x] y = Except.ok [b] ∧
          ∀ t : ℚ, rss x y b ≤ rss x y t ∧
            (rss x y t = rss x y b → |b| ≤ |t|)) := by
  refine ⟨fun cols y => ⟨matVec (pinvCols cols) y, rfl⟩,
    by norm_num [det2, gram, dot], ?_⟩
  intro x y hlen
  by_cases hs : dot x x = 0
  · refine ⟨0, by rw [olsFit_single, if_pos hs], ?_⟩
    have hconst : ∀ u : ℚ, rss x y u = sumSq y := by
      intro u
      rw [rss_expand x y hlen u, hs, dot_self_zero_forces_zero x y hs]
      ring
    intro t
    refine ⟨by rw [hconst, hconst], fun _ => ?_⟩
    simp
  · have hnn0 : 0 ≤ dot x x := by
      rw [← sumSq_eq_dot_self]; exact sumSq_nonneg x
    have hpos : 0 < dot x x := lt_of_le_of_ne hnn0 (Ne.symm hs)
    refine ⟨dot x y / dot x x, by rw [olsFit_single, if_neg hs], ?_⟩
    intro t
    have h1 := rss_expand x y hlen t
    have h2 := rss_expand x y hlen (dot x y / dot x x)
    have hid : rss x y t - rss x y (dot x y / dot x x) =
        (t * dot x x - dot x y) ^ 2 / dot x x := by
      rw [h1, h2]
      field_simp
      ring
    have hnn : 0 ≤ (t * dot x x - dot x y) ^ 2 / dot x x :=
      div_nonneg (sq_nonneg _) hpos.le
    refine ⟨by linarith, ?_⟩
    intro heq
    have hz : (t * dot x x - dot x y) ^ 2 / dot x x = 0 := by
      rw [← hid]
      linarith
    have hz2 : (t * dot x x - dot x y) ^ 2 = 0 := by
      rcases div_eq_zero_iff.mp hz with h | h
      · exact h
      · exact absurd h hs
    have hz3 : t * dot x x - dot x y = 0 := by
      exact sq_eq_zero_iff.mp hz2
    have ht : t = dot x y / dot x x := by
      field_simp
      linarith
    rw [ht]

/-- Witness for `pinv_engine_never_fails` on the rank-deficient
single-column design `x = [0, 0]`: the fit succeeds with the minimum-norm
estimate rather than erroring. -/
theorem pinv_engine_never_fails_witness :
    ∃ b, olsFit [[0, 0]] [1, 2] = Except.ok [b] ∧
      ∀ t : ℚ, rss [0, 0] [1, 2] b ≤ rss [0, 0] [1, 2] t ∧
        (rss [0, 0] [1, 2] t = rss [0, 0] [1, 2] b → |b| ≤ |t|) :=
  pinv_engine_never_fails.2.2 [0, 0] [1, 2] (by decide)

theorem foldl_max_acc (l : List ℚ) (a b : ℚ) :
    l.foldl max (max a b) = max a (l.foldl max b) := by
  induction l generalizing b with
  | nil => rfl
  | cons c t ih =>
    simp only [List.foldl]
    rw [max_assoc, ih]

theorem maxAbs_cons (x : ℚ) (xs : List ℚ) :
    maxAbs (x :: xs) = max |x| (maxAbs xs) := by
  rw [maxAbs, List.map_cons, List.foldl_cons, max_comm 0 |x|]
  exact foldl_max_acc _ _ _

theorem maxAbs_nonneg (xs : List ℚ) : 0 ≤ maxAbs xs := by
  induction xs with
  | nil => simp [maxAbs]
  | cons a t ih =>
    rw [maxAbs_cons]
    exact le_trans ih (le_max_right _ _)

theorem maxAbs_eq_zero_iff (xs : List ℚ) :
    maxAbs xs = 0 ↔ ∀ x ∈ xs, x = 0 := by
  induction xs with
  | nil => simp [maxAbs]
  | cons a t ih =>
    rw [maxAbs_cons]
    constructor
    · intro h
      have h1 : |a| ≤ 0 := by rw [← h]; exact le_max_left _ _
      have h2 : maxAbs t ≤ 0 := by rw [← h]; exact le_max_right _ _
      have ha : a = 0 := abs_nonpos_iff.mp h1
      have hm : ∀ x ∈ t, x = 0 := ih.mp (le_antisymm h2 (maxAbs_nonneg t))
      intro x hx
      rcases List.mem_cons.mp hx with hx | hx
      · rw [hx, ha]
      · exact hm x hx
    · intro h
      have ha : a = 0 := h a (List.mem_cons_self a t)
      have hm : maxAbs t = 0 := ih.mpr (fun x hx => h x (List.mem_cons_of_mem a hx))
      rw [ha, hm]
      simp

theorem sum_nonneg_eq_zero_iff (l : List ℚ) (h : ∀ a ∈ l, 0 ≤ a) :
    l.sum = 0 ↔ ∀ a ∈ l, a = 0 := by
  induction l with
  | nil => simp
  | cons a t ih =>
    have ha : 0 ≤ a := h a (List.mem_cons_self a t)
    have ht : ∀ b ∈ t, 0 ≤ b := fun b hb => h b (List.mem_cons_of_mem a hb)
    have hts : 0 ≤ t.sum := List.sum_nonneg ht
    rw [List.sum_cons]
    constructor
    · intro hz
      have ha0 : a = 0 := by linarith
      have hts0 : t.sum = 0 := by linarith
      intro b hb
      rcases List.mem_cons.mp hb with hb | hb
      · rw [hb, ha0]
      · exact ((ih ht).mp hts0) b hb
    · intro hall
      have ha0 : a = 0 := hall a (List.mem_cons_self a t)
      have hts0 : t.sum = 0 :=
        (ih ht).mpr (fun b hb => hall b (List.mem_cons_of_mem a hb))
      rw [ha0, hts0, add_zero]

theorem varianceQ_eq_zero_iff (xs : List ℚ) (hne : xs ≠ []) :
    varianceQ xs = 0 ↔ ∀ x ∈ xs, x = meanQ xs := by
  have hn : (xs.length : ℚ) ≠ 0 := by
    exact_mod_cast Nat.pos_iff_ne_zero.mp (List.length_pos.mpr hne)
  have hterms : ∀ a ∈ xs.map (fun x => (x - meanQ xs) * (x - meanQ xs)), 0 ≤ a := by
    intro a ha
    rcases List.mem_map.mp ha with ⟨x, _, rfl⟩
    exact mul_self_nonneg _
  rw [varianceQ, div_eq_zero_iff]
  constructor
  · intro h
    rcases h with h | h
    · intro x hx
      have := (sum_nonneg_eq_zero_iff _ hterms).mp h
        ((x - meanQ xs) * (x - meanQ xs)) (List.mem_map.mpr ⟨x, hx, rfl⟩)
      have := mul_self_eq_zero.mp this
      linarith
    · exact absurd h hn
  · intro h
    left
    refine (sum_nonneg_eq_zero_iff _ hterms).mpr ?_
    intro a ha
    rcases List.mem_map.mp ha with ⟨x, hx, rfl⟩
    rw [h x hx]
    ring

/-- C5: the design matrix builder fails with `DegenerateRegressor` exactly
when the covariate has zero standard deviation (equivalently: is constant,
every value equal to its mean, i.e. zero variance), and exactly when the
confound is all zeros; otherwise the covariate is z-transformed (the result
carries the mean-centred values and the positive variance, whose square root
is the standard-deviation divisor) and the confound is unit-max scaled
(divided by its maximum absolute value). -/
theorem design_builder_degenerate (xs : List ℚ) (hne : xs ≠ []) :
    ((∀ x ∈ xs, x = meanQ xs) ↔
        buildCovariate xs = Except.error GlmError.DegenerateRegressor) ∧
      (¬(∀ x ∈ xs, x = meanQ xs) →
        buildCovariate xs = Except.ok (centered xs, varianceQ xs)) ∧
      ((∀ x ∈ xs, x = 0) ↔
        buildConfound xs = Except.error GlmError.DegenerateRegressor) ∧
      (¬(∀ x ∈ xs, x = 0) →
        buildConfound xs = Except.ok (xs.map (fun x => x / maxAbs xs))) := by
  have hv := varianceQ_eq_zero_iff xs hne
  have hm := maxAbs_eq_zero_iff xs
  refine ⟨⟨?_, ?_⟩, ?_, ⟨?_, ?_⟩, ?_⟩
  · intro h
    rw [buildCovariate, if_pos (hv.mpr h)]
  · intro h
    by_cases hz : varianceQ xs = 0
    · exact hv.mp hz
    · rw [buildCovariate, if_neg hz] at h
      exact absurd h (by simp)
  · intro h
    have hz : varianceQ xs ≠ 0 := fun hz => h (hv.mp hz)
    rw [buildCovariate, if_neg hz]
  · intro h
    rw [buildConfound, if_pos (hm.mpr h)]
  · intro h
    by_cases hz : maxAbs xs = 0
    · exact hm.mp hz
    · rw [buildConfound, if_neg hz] at h
      exact absurd h (by simp)
  · intro h
    have hz : maxAbs xs ≠ 0 := fun hz => h (hm.mp hz)
    rw [buildConfound, if_neg hz]

/-- Witness for `design_builder_degenerate`: the constant covariate `[2, 2]`
and the all-zero confound `[0, 0]` fail with `DegenerateRegressor`; the
non-degenerate array `[0, 2]` succeeds in both roles. -/
theorem design_builder_degenerate_witness :
    buildCovariate [2, 2] = Except.error GlmError.DegenerateRegressor ∧
      buildConfound [0, 0] = Except.error GlmError.DegenerateRegressor ∧
      buildCovariate [0, 2] = Except.ok (centered [0, 2], varianceQ [0, 2]) ∧
      buildConfound [0, 2] =
        Except.ok (([0, 2] : List ℚ).map (fun x => x / maxAbs [0, 2])) := by
  refine ⟨?_, ?_, ?_, ?_⟩
  · exact ((design_builder_degenerate [2, 2] (by simp)).1).mp
      (by intro x hx; fin_cases hx <;> norm_num [meanQ])
  · exact ((design_builder_degenerate [0, 0] (by simp)).2.2.1).mp
      (by intro x hx; fin_cases hx <;> rfl)
  · exact (design_builder_degenerate [0, 2] (by simp)).2.1
      (by intro h; have := h 0 (by simp); norm_num [meanQ] at this)
  · exact (design_builder_degenerate [0, 2] (by simp)).2.2.2
      (by intro h; have := h 2 (by simp); norm_num at this)

theorem nullDist_getD (perms : List (List ℚ)) (i : Nat)
    (h : i < perms.length) :
    (nullDistribution perms).getD i 0 =
      largestClusterStat (perms.getD i []) := by
  induction perms generalizing i with
  | nil => simp at h
  | cons p ps ih =>
    cases i with
    | zero => rfl
    | succ j =>
      have hj : j < ps.length := by simpa using h
      exact ih j hj

/-- C7: the permutation null distribution holds exactly one value per
permutation — the largest cluster statistic of that permutation's refit —
and an observed cluster is significant at the default level
alpha = 0.05 exactly when its statistic exceeds the `(1 - alpha)` (i.e.
95th) percentile of that null distribution. -/
theorem cluster_inference (perms : List (List ℚ)) :
    (nullDistribution perms).length = perms.length ∧
      (∀ i, i < perms.length →
        (nullDistribution perms).getD i 0 =
          largestClusterStat (perms.getD i [])) ∧
      (1 - defaultAlpha) * 100 = 95 ∧
      (∀ stat : ℚ, significantCluster stat (nullDistribution perms) = true ↔
        percentile (nullDistribution perms) 95 < stat) := by
  refine ⟨by simp [nullDistribution], ?_, by norm_num [defaultAlpha], ?_⟩
  · intro i h
    exact nullDist_getD perms i h
  · intro stat
    norm_num [significantCluster, defaultAlpha]

/-- Witness for `cluster_inference`: two permutations with cluster
statistics `[3, 1]` and `[2]`; the null distribution is `[3, 2]`, its entry
0 is the largest statistic 3 of the first permutation, and a statistic of 5
is significant against the 95th percentile. -/
theorem cluster_inference_witness :
    (nullDistribution [[3, 1], [2]]).getD 0 0 = largestClusterStat [3, 1] ∧
      (significantCluster 5 (nullDistribution [[3, 1], [2]]) = true ↔
        percentile (nullDistribution [[3, 1], [2]]) 95 < 5) :=
  ⟨(cluster_inference [[3, 1], [2]]).2.1 0 (by norm_num),
    (cluster_inference [[3, 1], [2]]).2.2.2 5⟩

theorem flatten_length_rect (m : List (List ℚ)) (c : Nat)
    (h : ∀ r ∈ m, r.length = c) : m.flatten.length = m.length * c := by
  induction m with
  | nil => simp
  | cons r t ih =>
    have hr : r.length = c := h r (List.mem_cons_self r t)
    have ht : ∀ r ∈ t, r.length = c := fun r hr => h r (List.mem_cons_of_mem _ hr)
    simp only [List.flatten_cons, List.length_append, List.length_cons]
    rw [hr, ih ht]
    ring

theorem chunksN_flatten_rect (m : List (List ℚ)) (c : Nat)
    (h : ∀ r ∈ m, r.length = c) : chunksN m.length c m.flatten = m := by
  induction m with
  | nil => rfl
  | cons r t ih =>
    have hr : r.length = c := h r (List.mem_cons_self r t)
    have ht : ∀ r ∈ t, r.length = c := fun r hr => h r (List.mem_cons_of_mem _ hr)
    simp only [List.length_cons, chunksN, List.flatten_cons]
    rw [List.take_left' hr, List.drop_left' hr, ih ht]

theorem decode_encode_rect (m : List (List ℚ)) (h : Rect m) :
    decodeMat (encodeMat m) = some m := by
  have h1 : (encodeMat m).2.2.length = (encodeMat m).1 * (encodeMat m).2.1 := by
    simpa [encodeMat] using flatten_length_rect m (m.headD []).length h
  rw [decodeMat, if_pos h1]
  exact congrArg some
    (by simpa [encodeMat] using chunksN_flatten_rect m (m.headD []).length h)

/-- C8: serializing a fitted first-level model to a single file and
reloading it reproduces the model — in particular identical beta, cope,
varcope and tstat arrays — without re-running the fit (the load is pure
decoding), provided each stored array is rectangular. -/
theorem model_roundtrip (m : FittedGLM) (h1 : Rect m.betas)
    (h2 : Rect m.copes) (h3 : Rect m.varcopes) (h4 : Rect m.tstats) :
    loadModel (saveModel m) = some m := by
  simp [loadModel, saveModel, decode_encode_rect _ h1, decode_encode_rect _ h2,
    decode_encode_rect _ h3, decode_encode_rect _ h4]

/-- Witness for `model_roundtrip` on a concrete fitted model. -/
theorem model_roundtrip_witness :
    loadModel (saveModel ⟨[[1, 2]], [[3, 4]], [[5, 6]], [[7, 8]], [0, 1]⟩) =
      some ⟨[[1, 2]], [[3, 4]], [[5, 6]], [[7, 8]], [0, 1]⟩ :=
  model_roundtrip ⟨[[1, 2]], [[3, 4]], [[5, 6]], [[7, 8]], [0, 1]⟩
    (by simp [Rect]) (by simp [Rect]) (by simp [Rect]) (by simp [Rect])

end OslEphys
